import Mathlib

/-!
Shallow embedding of the temporal-smoothing layer of the activity-recognition
repository: the rolling-mode smoother (`mode`, `rolling_mode`, and the
per-subject smoothing loop) translated from the notebook source, and the HMM
estimator / Viterbi decoder (`train_hmm`, `viterbi`) modelled from the spec
(their implementation file `utils.py` is not part of the sources).

Timestamps are integers (pandas `datetime64[ns]` is a 64-bit nanosecond
count), probabilities are exact rationals, pandas categorical codes are
natural numbers indexing the sorted list of distinct labels, and Viterbi
scores live in `ℝ` with a real logarithm.
-/

/-! ### Generic counting helpers (model of value counts over numpy arrays) -/

/-- Number of occurrences of `a` in `l` (model of counting equal entries). -/
def cnt {α : Type} [DecidableEq α] (l : List α) (a : α) : ℕ :=
  (l.filter (fun x => x = a)).length

/-- The maximal frequency of any value of `l` (the count returned by
`scipy.stats.mode`); `0` for the empty list. -/
def maxCount {α : Type} [DecidableEq α] (l : List α) : ℕ :=
  (l.map (fun a => cnt l a)).foldr max 0

/-- Minimum of a list of naturals (junk value `0` on the empty list). -/
def listMin : List ℕ → ℕ
  | [] => 0
  | x :: xs => xs.foldl min x

/-- The value returned by `scipy.stats.mode`: the smallest value attaining
the maximal frequency. -/
def modeVal (l : List ℕ) : ℕ :=
  listMin (l.filter (fun a => cnt l a = maxCount l))

/-- Translation of the notebook's `mode`: `scipy.stats.mode` of the window,
except that when the maximal frequency is 1 the middle element
`alist[len(alist)//2]` is returned. -/
def mode (l : List ℕ) : ℕ :=
  if maxCount l = 1 then l.getD (l.length / 2) 0 else modeVal l

/-! ### Rolling windows (pandas `Series.rolling` with a time-offset window) -/

/-- The trailing rolling window at position `i`: entries at positions `j ≤ i`
whose timestamp is strictly greater than `t i - w` (pandas offset-based
rolling windows are closed on the right only, `closed='right'`, i.e. the
window is the interval `(t i - w, t i]` over a monotone index).  Timestamps
are integers, the faithful model of pandas `datetime64[ns]` values, which
are 64-bit integer nanosecond counts. -/
def windowAt {α : Type} (t : List ℤ) (y : List α) (w : ℤ) (i : ℕ) : List α :=
  ((((t.zip y).take (i + 1)).filter (fun p => t.getD i 0 - w < p.1)).map Prod.snd)

/-- Rolling mode over category codes: the composition
`y.cat.codes.rolling(window).apply(mode, raw=True)` from the notebook. -/
def rolling_mode_codes (t : List ℤ) (y : List ℕ) (w : ℤ) : List ℕ :=
  (List.range y.length).map (fun i => mode (windowAt t y w i))

/-! ### Pandas categorical encoding: codes index the sorted distinct labels -/

/-- Insert a label into a strictly sorted list, keeping it strictly sorted
(duplicates are dropped). -/
def insertCat {L : Type} [LinearOrder L] (a : L) : List L → List L
  | [] => [a]
  | b :: l => if a = b then b :: l else if a < b then a :: b :: l else b :: insertCat a l

/-- The pandas categorical alphabet of `y`: its distinct values in sorted
order (`pd.Series(y, dtype='category')` sorts the categories). -/
def categories {L : Type} [LinearOrder L] (y : List L) : List L :=
  y.foldr insertCat []

/-- Index of the first occurrence of `a` in `l` (the categorical code of a
label; junk `l.length` when absent). -/
def idxOf {L : Type} [DecidableEq L] : List L → L → ℕ
  | [], _ => 0
  | b :: l, a => if a = b then 0 else idxOf l a + 1

/-- Translation of the notebook's `rolling_mode`: encode the labels as
categorical codes, smooth the codes with the rolling `mode`, and decode the
resulting codes back to labels (`pd.Categorical.from_codes`). -/
def rolling_mode {L : Type} [LinearOrder L] [Inhabited L]
    (t : List ℤ) (y : List L) (w : ℤ) : List L :=
  (rolling_mode_codes t (y.map (idxOf (categories y))) w).map
    (fun c => (categories y).getD c default)

/-! ### The per-subject smoothing loop of the notebook -/

/-- The entries of `xs` lying at the positions where `pid` equals `p`
(the notebook's boolean-mask selection `xs[pid == p]`). -/
def selectBy {P α : Type} [DecidableEq P] (pid : List P) (xs : List α) (p : P) : List α :=
  ((pid.zip xs).filter (fun q => q.1 = p)).map Prod.snd

/-- Helper for `uniqueInOrder`: keep each element not already seen. -/
def uniqueInOrderAux {P : Type} [DecidableEq P] : List P → List P → List P
  | _, [] => []
  | seen, x :: xs =>
      if x ∈ seen then uniqueInOrderAux seen xs else x :: uniqueInOrderAux (x :: seen) xs

/-- The distinct subject ids in order of first occurrence (the notebook's
`np.unique(pid, return_index=True)` followed by sorting on the first-index
array). -/
def uniqueInOrder {P : Type} [DecidableEq P] (l : List P) : List P :=
  uniqueInOrderAux [] l

/-- The notebook's smoothing loop: for each subject in first-occurrence
order, smooth that subject's subsequence with `rolling_mode`, then
concatenate the per-subject results. -/
def smoothPerSubject {P L : Type} [DecidableEq P] [LinearOrder L] [Inhabited L]
    (pid : List P) (t : List ℤ) (y : List L) (w : ℤ) : List L :=
  (uniqueInOrder pid).flatMap (fun p => rolling_mode (selectBy pid t p) (selectBy pid y p) w)

/-! ### Definitions following the spec's words, for comparison with the code -/

/-- The rolling window as the spec's words describe it: all entries with
timestamp in the closed interval `[t i - w, t i]`, both endpoints included.
This definition follows the spec's words and is compared against the
source-derived `windowAt`. -/
def windowAtSpec {α : Type} (t : List ℤ) (y : List α) (w : ℤ) (i : ℕ) : List α :=
  ((((t.zip y).take (i + 1)).filter (fun p => t.getD i 0 - w ≤ p.1)).map Prod.snd)

/-- Rolling-mode smoothing computed over the spec's closed-interval windows;
follows the spec's words, for comparison with `rolling_mode`. -/
def rolling_mode_spec {L : Type} [LinearOrder L] [Inhabited L]
    (t : List ℤ) (y : List L) (w : ℤ) : List L :=
  let codes := y.map (idxOf (categories y))
  ((List.range y.length).map (fun i => mode (windowAtSpec t codes w i))).map
    (fun c => (categories y).getD c default)

/-- The adjacent ground-truth pairs drawn from the same subject; follows the
spec's words ("only accumulate a transition count for adjacent pairs (i, i+1)
drawn from the same subject"), for comparison with the modelled `train_hmm`. -/
def sameSubjectPairs {P L : Type} [DecidableEq P] (pid : List P) (Y : List L) : List (L × L) :=
  (((pid.zip Y).zip (pid.zip Y).tail).filter (fun q => q.1.1 = q.2.1)).map
    (fun q => (q.1.2, q.2.2))

/-! ### The HMM parameter bundle and `train_hmm`, modelled from the spec -/

/-- Modelled from the spec: the immutable `HMMParams` bundle of spec section 3
(`utils.py`, which defines it, is not among the sources); a flat record of the
prior vector, transition matrix, emission matrix and the label ordering. -/
structure HMMParams (L : Type) where
  labels : List L
  prior : List ℚ
  transition : List (List ℚ)
  emission : List (List ℚ)

/-- Entry `(i, j)` of a matrix stored as a list of rows (junk `0` outside). -/
def mat (m : List (List ℚ)) (i j : ℕ) : ℚ :=
  (m.getD i []).getD j 0

/-- Row-normalize a vector: divide each entry by the row sum. -/
def normRow (r : List ℚ) : List ℚ :=
  r.map (fun x => x / r.sum)

/-- Modelled from the spec: the prior of spec section 4.2, the empirical
marginal frequency of each label across the full training sequence. -/
def hmmPrior {L : Type} [DecidableEq L] (Ytrue : List L) (labels : List L) : List ℚ :=
  labels.map (fun c => (cnt Ytrue c : ℚ) / (Ytrue.length : ℚ))

/-- The successors of occurrences of `c` among adjacent pairs of `Ytrue`. -/
def succAfter {L : Type} [DecidableEq L] (Ytrue : List L) (c : L) : List L :=
  ((Ytrue.zip Ytrue.tail).filter (fun p => p.1 = c)).map Prod.snd

/-- Modelled from the spec: one row of the transition matrix of spec section
4.2.  The spec's own contract `train(probabilities, true_labels, label_order)`
(sections 4.2 and 6), like the call in the notebook, passes no subject
identifiers, so the counts necessarily range over all adjacent pairs of the
concatenated ground-truth sequence; an all-zero row falls back to the uniform
row, as the spec prescribes. -/
def hmmTransRow {L : Type} [DecidableEq L] (Ytrue : List L) (labels : List L) (c : L) : List ℚ :=
  let outs := succAfter Ytrue c
  if outs.isEmpty then labels.map (fun _ => 1 / (labels.length : ℚ))
  else labels.map (fun d => (cnt outs d : ℚ) / (outs.length : ℚ))

/-- Modelled from the spec: the transition matrix of spec section 4.2. -/
def hmmTransition {L : Type} [DecidableEq L] (Ytrue : List L) (labels : List L) : List (List ℚ) :=
  labels.map (hmmTransRow Ytrue labels)

/-- Column-wise mean of a list of `K`-vectors (junk `0`-padded). -/
def colMean (rows : List (List ℚ)) (K : ℕ) : List ℚ :=
  (List.range K).map (fun j => (rows.map (fun r => r.getD j 0)).sum / (rows.length : ℚ))

/-- Modelled from the spec: one row of the emission matrix of spec section
4.2: average the probability vectors of all training rows whose true label
equals `c`, then row-normalize. -/
def hmmEmisRow {L : Type} [DecidableEq L] (prob : List (List ℚ)) (Ytrue : List L)
    (labels : List L) (c : L) : List ℚ :=
  normRow (colMean (((prob.zip Ytrue).filter (fun p => p.2 = c)).map Prod.fst) labels.length)

/-- Modelled from the spec: the emission matrix of spec section 4.2. -/
def hmmEmission {L : Type} [DecidableEq L] (prob : List (List ℚ)) (Ytrue : List L)
    (labels : List L) : List (List ℚ) :=
  labels.map (hmmEmisRow prob Ytrue labels)

/-- Modelled from the spec: `utils.train_hmm` (spec sections 4.2 and 6), whose
implementation file is not among the sources; assembles the prior, transition
and emission estimates into the immutable parameter bundle. -/
def train_hmm {L : Type} [DecidableEq L] (prob : List (List ℚ)) (Ytrue : List L)
    (labels : List L) : HMMParams L :=
  ⟨labels, hmmPrior Ytrue labels, hmmTransition Ytrue labels, hmmEmission prob Ytrue labels⟩

/-! ### The Viterbi decoder, modelled from the spec -/

/-- Modelled from the spec: the numerical policy of spec section 4.3 — a
probability entry is consumed in log space, and an entry of exactly 0 is
first clipped to the small positive floor `1e-16` so that no path becomes
permanently unreachable. -/
noncomputable def safelog (x : ℚ) : ℝ :=
  Real.log (((if x = 0 then 1 / 10 ^ 16 else x : ℚ) : ℝ))

/-- Maximum of `f 0, …, f n` (inclusive upper index). -/
noncomputable def maxUpTo (f : ℕ → ℝ) : ℕ → ℝ
  | 0 => f 0
  | n + 1 => max (maxUpTo f n) (f (n + 1))

/-- First index attaining the maximum of `f 0, …, f n` (the behaviour of
`np.argmax`). -/
noncomputable def argmaxUpTo (f : ℕ → ℝ) : ℕ → ℕ
  | 0 => 0
  | n + 1 => if maxUpTo f n < f (n + 1) then n + 1 else argmaxUpTo f n

/-- Modelled from the spec: the Viterbi initialization at `t = 0`,
`score[0][k] = log(prior[k]) + log(emission[k][obs_0])` (spec section 4.3). -/
noncomputable def vitInit (P : HMMParams L) (o : ℕ) (k : ℕ) : ℝ :=
  safelog (P.prior.getD k 0) + safelog (mat P.emission k o)

/-- Modelled from the spec: one step of the Viterbi recurrence over `K`
states, `score[t][k] = max_over_j(score[t-1][j] + log(transition[j][k])) +
log(emission[k][obs_t])` (spec section 4.3). -/
noncomputable def vitStep (P : HMMParams L) (K : ℕ) (prev : ℕ → ℝ) (o : ℕ) (k : ℕ) : ℝ :=
  maxUpTo (fun j => prev j + safelog (mat P.transition j k)) (K - 1) +
    safelog (mat P.emission k o)

/-- The Viterbi score column after consuming `o0 :: rest`. -/
noncomputable def vitScore (P : HMMParams L) (K : ℕ) (o0 : ℕ) (rest : List ℕ) : ℕ → ℝ :=
  rest.foldl (vitStep P K) (vitInit P o0)

/-- The forward table of Viterbi score columns, one per observation. -/
noncomputable def vitRows (P : HMMParams L) (K : ℕ) (o0 : ℕ) (rest : List ℕ) :
    List (ℕ → ℝ) :=
  rest.scanl (vitStep P K) (vitInit P o0)

/-- Modelled from the spec: the arg-max backpointer recorded at a recurrence
step — the state `j` maximizing `score[t-1][j] + log(transition[j][k])`. -/
noncomputable def bestPrev (P : HMMParams L) (K : ℕ) (s : ℕ → ℝ) (k : ℕ) : ℕ :=
  argmaxUpTo (fun j => s j + safelog (mat P.transition j k)) (K - 1)

/-- Modelled from the spec: path reconstruction by following backpointers
from the terminal state; `prevRows` holds the earlier score columns, most
recent first. -/
noncomputable def vitBack (P : HMMParams L) (K : ℕ) : List (ℕ → ℝ) → ℕ → List ℕ
  | [], k => [k]
  | s :: prevRows, k => vitBack P K prevRows (bestPrev P K s k) ++ [k]

/-- Modelled from the spec: the decoded state sequence — the terminal state
is the arg-max of the final score column, and the path is reconstructed by
following backpointers back to `t = 0` (spec section 4.3). -/
noncomputable def vitDecode (P : HMMParams L) (o0 : ℕ) (rest : List ℕ) : List ℕ :=
  let K := P.labels.length
  let rows := vitRows P K o0 rest
  vitBack P K rows.dropLast.reverse
    (argmaxUpTo (rows.getLastD (vitInit P o0)) (K - 1))

/-- Modelled from the spec: `utils.viterbi` (spec sections 4.3 and 6), whose
implementation file is not among the sources.  It validates that the sequence
is non-empty and that every predicted label belongs to `params.labels`
(raising a validation error otherwise), encodes the observations as label
indices, runs the log-domain dynamic program, and decodes the resulting state
path back to labels. -/
noncomputable def viterbi {L : Type} [DecidableEq L] [Inhabited L]
    (obs : List L) (P : HMMParams L) : Except String (List L) :=
  match obs with
  | [] => Except.error "viterbi: empty sequence"
  | o :: rest =>
      if (o :: rest).all (fun l => decide (l ∈ P.labels)) then
        Except.ok ((vitDecode P (idxOf P.labels o) (rest.map (idxOf P.labels))).map
          (fun c => P.labels.getD c default))
      else Except.error "viterbi: label not in alphabet"

/-! ### A concrete label alphabet for the spec's worked example -/

/-- The two activity labels of the spec's rolling-mode example. -/
inductive ActLabel : Type
  | sleep : ActLabel
  | walk : ActLabel
deriving DecidableEq

/-- Category codes of the example labels: `sleep` sorts before `walk`. -/
def ActLabel.code : ActLabel → ℕ
  | .sleep => 0
  | .walk => 1

instance : LinearOrder ActLabel :=
  LinearOrder.lift' ActLabel.code (by intro a b; cases a <;> cases b <;> simp [ActLabel.code])

instance : Inhabited ActLabel := ⟨ActLabel.sleep⟩

/-! ### Lemmas about counting and the window mode -/

theorem cnt_cons {α : Type} [DecidableEq α] (b : α) (l : List α) (a : α) :
    cnt (b :: l) a = if b = a then cnt l a + 1 else cnt l a := by
  by_cases h : b = a <;> simp [cnt, List.filter_cons, h]

theorem cnt_pos_of_mem {α : Type} [DecidableEq α] {l : List α} {a : α} (h : a ∈ l) :
    0 < cnt l a := by
  induction l with
  | nil => cases h
  | cons b l ih =>
    rw [cnt_cons]
    rcases List.mem_cons.mp h with h | h
    · simp [h.symm]
    · by_cases hb : b = a <;> simp [hb, ih h]
    
theorem le_foldr_max {x : ℕ} {L : List ℕ} (h : x ∈ L) : x ≤ L.foldr max 0 := by
  induction L with
  | nil => cases h
  | cons b L ih =>
    rcases List.mem_cons.mp h with h | h
    · simp [h]
    · exact le_trans (ih h) (by simp)

theorem foldr_max_mem {L : List ℕ} : L.foldr max 0 ∈ L ∨ L.foldr max 0 = 0 := by
  induction L with
  | nil => exact Or.inr rfl
  | cons b L ih =>
    simp only [List.foldr_cons]
    rcases Nat.le_total (L.foldr max 0) b with h | h
    · exact Or.inl (by simp [Nat.max_eq_left h])
    · rw [Nat.max_eq_right h]
      rcases ih with hm | hz
      · exact Or.inl (List.mem_cons_of_mem _ hm)
      · exact Or.inr hz

theorem cnt_le_maxCount {α : Type} [DecidableEq α] {l : List α} {a : α} (h : a ∈ l) :
    cnt l a ≤ maxCount l :=
  le_foldr_max (List.mem_map_of_mem (fun a => cnt l a) h)

theorem exists_cnt_eq_maxCount {α : Type} [DecidableEq α] {l : List α} (h : l ≠ []) :
    ∃ a ∈ l, cnt l a = maxCount l := by
  rcases foldr_max_mem (L := l.map (fun a => cnt l a)) with hm | hz
  · rcases List.mem_map.mp hm with ⟨a, ha, hc⟩
    exact ⟨a, ha, hc⟩
  · rcases List.exists_mem_of_ne_nil l h with ⟨a, ha⟩
    have h1 : 0 < cnt l a := cnt_pos_of_mem ha
    have h2 : cnt l a ≤ maxCount l := cnt_le_maxCount ha
    rw [maxCount, hz] at h2
    omega

theorem maxCount_pos {α : Type} [DecidableEq α] {l : List α} (h : l ≠ []) :
    0 < maxCount l := by
  rcases List.exists_mem_of_ne_nil l h with ⟨a, ha⟩
  exact lt_of_lt_of_le (cnt_pos_of_mem ha) (cnt_le_maxCount ha)

theorem foldl_min_le_self {x : ℕ} {L : List ℕ} : L.foldl min x ≤ x := by
  induction L generalizing x with
  | nil => exact le_refl x
  | cons b L ih => exact le_trans ih (Nat.min_le_left x b)

theorem foldl_min_mem {x : ℕ} {L : List ℕ} : L.foldl min x = x ∨ L.foldl min x ∈ L := by
  induction L generalizing x with
  | nil => exact Or.inl rfl
  | cons b L ih =>
    simp only [List.foldl_cons]
    rcases ih (x := min x b) with he | hm
    · rcases min_choice x b with h | h
      · exact Or.inl (by rw [he, h])
      · refine Or.inr ?_
        rw [he, h]
        exact List.mem_cons_self _ _
    · exact Or.inr (List.mem_cons_of_mem _ hm)

theorem listMin_mem {l : List ℕ} (h : l ≠ []) : listMin l ∈ l := by
  cases l with
  | nil => exact absurd rfl h
  | cons x xs =>
    simp only [listMin]
    rcases foldl_min_mem (x := x) (L := xs) with he | hm
    · rw [he]
      exact List.mem_cons_self _ _
    · exact List.mem_cons_of_mem _ hm

theorem foldl_min_le {x a : ℕ} {L : List ℕ} (h : a ∈ L) : L.foldl min x ≤ a := by
  induction L generalizing x with
  | nil => cases h
  | cons b L ih =>
    simp only [List.foldl_cons]
    rcases List.mem_cons.mp h with h | h
    · subst h
      exact le_trans foldl_min_le_self (Nat.min_le_right x a)
    · exact ih h

theorem listMin_le {l : List ℕ} {a : ℕ} (h : a ∈ l) : listMin l ≤ a := by
  cases l with
  | nil => cases h
  | cons x xs =>
    rcases List.mem_cons.mp h with h | h
    · exact h ▸ foldl_min_le_self
    · exact foldl_min_le h

theorem modeVal_spec {l : List ℕ} (h : l ≠ []) :
    modeVal l ∈ l ∧ cnt l (modeVal l) = maxCount l ∧
      ∀ a ∈ l, cnt l a = maxCount l → modeVal l ≤ a := by
  rcases exists_cnt_eq_maxCount h with ⟨a, ha, hc⟩
  have hmem : modeVal l ∈ l.filter (fun b => cnt l b = maxCount l) := by
    apply listMin_mem
    intro hnil
    have : a ∈ l.filter (fun b => cnt l b = maxCount l) := by
      simp [List.mem_filter, ha, hc]
    rw [hnil] at this
    cases this
  have h1 := List.mem_filter.mp hmem
  refine ⟨h1.1, by simpa using h1.2, ?_⟩
  intro b hb hcb
  exact listMin_le (by simp [List.mem_filter, hb, hcb])

theorem mode_of_maxCount_one {l : List ℕ} (h : maxCount l = 1) :
    mode l = l.getD (l.length / 2) 0 := by
  simp [mode, h]

theorem mode_of_maxCount_ne_one {l : List ℕ} (h : maxCount l ≠ 1) :
    mode l = modeVal l := by
  simp [mode, h]

theorem mode_mem {l : List ℕ} (h : l ≠ []) : mode l ∈ l := by
  by_cases h1 : maxCount l = 1
  · rw [mode_of_maxCount_one h1]
    have hlen : 0 < l.length := List.length_pos.mpr h
    have : l.length / 2 < l.length := Nat.div_lt_self hlen (by omega)
    rw [List.getD_eq_getElem l 0 this]
    exact List.getElem_mem _
  · rw [mode_of_maxCount_ne_one h1]
    exact (modeVal_spec h).1

/-! ### Lemmas about rolling windows -/

theorem windowAt_subset {α : Type} {t : List ℤ} {y : List α} {w : ℤ} {i : ℕ} {v : α}
    (h : v ∈ windowAt t y w i) : v ∈ y := by
  rcases List.mem_map.mp h with ⟨p, hp, hv⟩
  have h1 : p ∈ (t.zip y).take (i + 1) := List.mem_of_mem_filter hp
  have h2 : p ∈ t.zip y := List.mem_of_mem_take h1
  exact hv ▸ (List.of_mem_zip h2).2

theorem self_mem_windowAt {α : Type} {t : List ℤ} {y : List α} {w : ℤ} {i : ℕ}
    (ht : i < t.length) (hy : i < y.length) (hw : 0 < w) (d : α) :
    y.getD i d ∈ windowAt t y w i := by
  have hzi : i < (t.zip y).length := by
    rw [List.length_zip]
    omega
  have hti : i < ((t.zip y).take (i + 1)).length := by
    rw [List.length_take]
    omega
  have hget : ((t.zip y).take (i + 1))[i] = (t[i], y[i]) := by
    rw [List.getElem_take]
    exact List.getElem_zip ..
  have hmem : (t[i], y[i]) ∈ (t.zip y).take (i + 1) := hget ▸ List.getElem_mem hti
  have hpred : t.getD i 0 - w < t[i] := by
    rw [List.getD_eq_getElem t 0 ht]
    exact sub_lt_self _ hw
  have hfil : (t[i], y[i]) ∈ ((t.zip y).take (i + 1)).filter
      (fun p => t.getD i 0 - w < p.1) := by
    rw [List.mem_filter]
    exact ⟨hmem, by simpa using hpred⟩
  have : y[i] ∈ windowAt t y w i := List.mem_map_of_mem Prod.snd hfil
  rwa [List.getD_eq_getElem y d hy]

theorem windowAt_ne_nil {α : Type} {t : List ℤ} {y : List α} {w : ℤ} {i : ℕ}
    [Inhabited α] (ht : i < t.length) (hy : i < y.length) (hw : 0 < w) :
    windowAt t y w i ≠ [] :=
  List.ne_nil_of_mem (self_mem_windowAt ht hy hw default)

theorem windowAt_map {α β : Type} (f : α → β) (t : List ℤ) (y : List α) (w : ℤ) (i : ℕ) :
    windowAt t (y.map f) w i = (windowAt t y w i).map f := by
  simp only [windowAt, List.zip_map_right, ← List.map_take, List.filter_map, List.map_map]
  rfl

theorem rolling_mode_codes_length (t : List ℤ) (y : List ℕ) (w : ℤ) :
    (rolling_mode_codes t y w).length = y.length := by
  simp [rolling_mode_codes]

theorem rolling_mode_codes_getD {t : List ℤ} {y : List ℕ} {w : ℤ} {i : ℕ}
    (hi : i < y.length) :
    (rolling_mode_codes t y w).getD i 0 = mode (windowAt t y w i) := by
  rw [rolling_mode_codes, List.getD_eq_getElem _ _ (by simpa using hi),
    List.getElem_map, List.getElem_range]

/-! ### Lemmas about the categorical alphabet and codes -/

theorem mem_insertCat {L : Type} [LinearOrder L] {a b : L} {l : List L} :
    b ∈ insertCat a l ↔ b = a ∨ b ∈ l := by
  induction l with
  | nil => simp [insertCat]
  | cons c l ih =>
    by_cases h1 : a = c
    · subst h1
      simp only [insertCat, if_pos rfl]
      constructor
      · intro h
        exact Or.inr h
      · intro h
        rcases h with h | h
        · exact h ▸ List.mem_cons_self _ _
        · exact h
    · by_cases h2 : a < c
      · simp only [insertCat, if_neg h1, if_pos h2, List.mem_cons]
      · simp only [insertCat, if_neg h1, if_neg h2, List.mem_cons, ih]
        tauto

theorem sorted_insertCat {L : Type} [LinearOrder L] {a : L} {l : List L}
    (h : l.Sorted (· < ·)) : (insertCat a l).Sorted (· < ·) := by
  induction l with
  | nil => simp [insertCat]
  | cons c l ih =>
    have h' := List.sorted_cons.mp h
    by_cases h1 : a = c
    · simpa only [insertCat, if_pos h1] using h
    · by_cases h2 : a < c
      · rw [insertCat, if_neg h1, if_pos h2, List.sorted_cons]
        refine ⟨?_, h⟩
        intro b hb
        rcases List.mem_cons.mp hb with hb | hb
        · exact hb ▸ h2
        · exact lt_trans h2 (h'.1 b hb)
      · rw [insertCat, if_neg h1, if_neg h2, List.sorted_cons]
        have hca : c < a := lt_of_le_of_ne (le_of_not_lt h2) (Ne.symm h1)
        refine ⟨?_, ih h'.2⟩
        intro b hb
        rcases mem_insertCat.mp hb with hb | hb
        · exact hb ▸ hca
        · exact h'.1 b hb

theorem mem_categories {L : Type} [LinearOrder L] {y : List L} {a : L} :
    a ∈ categories y ↔ a ∈ y := by
  induction y with
  | nil => simp [categories]
  | cons b y ih =>
    simp only [categories, List.foldr_cons] at *
    rw [mem_insertCat, ih, List.mem_cons]

theorem sorted_categories {L : Type} [LinearOrder L] (y : List L) :
    (categories y).Sorted (· < ·) := by
  induction y with
  | nil => simp [categories]
  | cons b y ih => exact sorted_insertCat ih

theorem idxOf_lt_length {L : Type} [DecidableEq L] {l : List L} {a : L} (h : a ∈ l) :
    idxOf l a < l.length := by
  induction l with
  | nil => cases h
  | cons b l ih =>
    by_cases h1 : a = b
    · simp [idxOf, h1]
    · rcases List.mem_cons.mp h with h2 | h2
      · exact absurd h2 h1
      · have := ih h2
        simp only [idxOf, if_neg h1, List.length_cons]
        omega

theorem getD_idxOf {L : Type} [DecidableEq L] {l : List L} {a : L} (h : a ∈ l) (d : L) :
    l.getD (idxOf l a) d = a := by
  induction l with
  | nil => cases h
  | cons b l ih =>
    by_cases h1 : a = b
    · simp [idxOf, h1]
    · rcases List.mem_cons.mp h with h2 | h2
      · exact absurd h2 h1
      · rw [idxOf, if_neg h1, List.getD_cons_succ]
        exact ih h2

theorem idxOf_inj {L : Type} [DecidableEq L] {l : List L} {a b : L}
    (ha : a ∈ l) (hb : b ∈ l) (h : idxOf l a = idxOf l b) : a = b := by
  have h1 := getD_idxOf ha a
  have h2 := getD_idxOf hb a
  rw [← h1, ← h2, h]

theorem getD_le_getD_of_sorted {L : Type} [LinearOrder L] {l : List L}
    (hs : l.Sorted (· < ·)) {i j : ℕ} (hij : i ≤ j) (hj : j < l.length) (d : L) :
    l.getD i d ≤ l.getD j d := by
  rcases eq_or_lt_of_le hij with he | hl
  · rw [he]
  · rw [List.getD_eq_getElem _ _ (lt_trans hl hj), List.getD_eq_getElem _ _ hj]
    exact le_of_lt (List.pairwise_iff_getElem.mp hs i j (lt_trans hl hj) hj hl)

/-! ### Transfer of counts along the categorical encoding -/

theorem cnt_map_inj {α β : Type} [DecidableEq α] [DecidableEq β] {l : List α} {f : α → β}
    {a : α} (hinj : ∀ x ∈ l, f x = f a → x = a) : cnt (l.map f) (f a) = cnt l a := by
  induction l with
  | nil => rfl
  | cons b l ih =>
    have hinj' : ∀ x ∈ l, f x = f a → x = a :=
      fun x hx => hinj x (List.mem_cons_of_mem _ hx)
    rw [List.map_cons, cnt_cons, cnt_cons]
    by_cases hb : b = a
    · rw [if_pos (by rw [hb]), if_pos hb, ih hinj']
    · have hfb : f b ≠ f a := fun hf => hb (hinj b (List.mem_cons_self _ _) hf)
      rw [if_neg hfb, if_neg hb, ih hinj']

theorem maxCount_map_inj {α β : Type} [DecidableEq α] [DecidableEq β] {l : List α}
    {f : α → β} (hinj : ∀ x ∈ l, ∀ z ∈ l, f x = f z → x = z) :
    maxCount (l.map f) = maxCount l := by
  unfold maxCount
  rw [List.map_map]
  congr 1
  apply List.map_congr_left
  intro a ha
  exact cnt_map_inj (fun x hx hfx => hinj x hx a ha hfx)

/-! ### Lemmas about `rolling_mode` -/

theorem rolling_mode_length {L : Type} [LinearOrder L] [Inhabited L]
    (t : List ℤ) (y : List L) (w : ℤ) : (rolling_mode t y w).length = y.length := by
  simp [rolling_mode, rolling_mode_codes]

theorem rolling_mode_getD {L : Type} [LinearOrder L] [Inhabited L]
    {t : List ℤ} {y : List L} {w : ℤ} {i : ℕ} (hi : i < y.length) :
    (rolling_mode t y w).getD i default =
      (categories y).getD (mode (windowAt t (y.map (idxOf (categories y))) w i)) default := by
  have h1 : i < (rolling_mode_codes t (y.map (idxOf (categories y))) w).length := by
    rw [rolling_mode_codes_length]
    simpa using hi
  rw [rolling_mode, List.getD_eq_getElem _ _ (by simpa using h1), List.getElem_map]
  congr 1
  have h2 := rolling_mode_codes_getD (t := t) (y := y.map (idxOf (categories y))) (w := w)
    (i := i) (by simpa using hi)
  rw [List.getD_eq_getElem _ _ h1] at h2
  exact h2

theorem rolling_mode_mem {L : Type} [LinearOrder L] [Inhabited L]
    {t : List ℤ} {y : List L} {w : ℤ} (hw : 0 < w) (hlen : t.length = y.length)
    {v : L} (hv : v ∈ rolling_mode t y w) : v ∈ y := by
  rcases List.mem_map.mp hv with ⟨c, hc, hvc⟩
  rw [rolling_mode_codes] at hc
  rcases List.mem_map.mp hc with ⟨i, hi, hci⟩
  rw [List.mem_range, List.length_map] at hi
  have hit : i < t.length := by omega
  have hwin : windowAt t (y.map (idxOf (categories y))) w i ≠ [] :=
    windowAt_ne_nil hit (by simpa using hi) hw
  have hm := windowAt_subset (mode_mem hwin)
  rcases List.mem_map.mp hm with ⟨u, hu, huc⟩
  rw [← hvc, ← hci, ← huc, getD_idxOf (mem_categories.mpr hu) default]
  exact hu

theorem mode_singleton (c : ℕ) : mode [c] = c := by
  have h1 : maxCount [c] = 1 := by simp [maxCount, cnt]
  rw [mode_of_maxCount_one h1]
  norm_num

/-! ### Claim theorems about the rolling-mode smoother -/

/-- C3: in `rolling_mode`, for every window in which no label repeats (the
maximal frequency equals 1), the output at that position is the label at the
middle index of the window by position, `window[len(window) / 2]`. -/
theorem claim_C3 {L : Type} [LinearOrder L] [Inhabited L] (t : List ℤ) (y : List L)
    (w : ℤ) (i : ℕ) (hlen : t.length = y.length) (hi : i < y.length) (hw : 0 < w)
    (h1 : maxCount (windowAt t y w i) = 1) :
    (rolling_mode t y w).getD i default =
      (windowAt t y w i).getD ((windowAt t y w i).length / 2) default := by
  have hit : i < t.length := by omega
  have hinj : ∀ x ∈ windowAt t y w i, ∀ z ∈ windowAt t y w i,
      idxOf (categories y) x = idxOf (categories y) z → x = z := by
    intro x hx z hz hxz
    exact idxOf_inj (mem_categories.mpr (windowAt_subset hx))
      (mem_categories.mpr (windowAt_subset hz)) hxz
  have hmapwin : windowAt t (y.map (idxOf (categories y))) w i =
      (windowAt t y w i).map (idxOf (categories y)) := windowAt_map ..
  have hmc : maxCount (windowAt t (y.map (idxOf (categories y))) w i) = 1 := by
    rw [hmapwin, maxCount_map_inj hinj]
    exact h1
  rw [rolling_mode_getD hi, mode_of_maxCount_one hmc, hmapwin]
  have hne : windowAt t y w i ≠ [] := windowAt_ne_nil hit hi hw
  have hpos : 0 < (windowAt t y w i).length := List.length_pos.mpr hne
  have hm2 : (windowAt t y w i).length / 2 < (windowAt t y w i).length :=
    Nat.div_lt_self hpos (by omega)
  rw [List.length_map]
  have hinner : (List.map (idxOf (categories y)) (windowAt t y w i)).getD
      ((windowAt t y w i).length / 2) 0 =
      idxOf (categories y) ((windowAt t y w i).getD ((windowAt t y w i).length / 2) default) := by
    rw [List.getD_eq_getElem _ _ (by simpa using hm2), List.getElem_map,
      List.getD_eq_getElem _ _ hm2]
  have hmem : (windowAt t y w i).getD ((windowAt t y w i).length / 2) default ∈
      windowAt t y w i := by
    rw [List.getD_eq_getElem _ _ hm2]
    exact List.getElem_mem _
  rw [hinner]
  exact getD_idxOf (mem_categories.mpr (windowAt_subset hmem)) default

/-- C10: for every non-empty input with strictly increasing timestamps (and a
positive window duration), the first element of the sequence returned by
`rolling_mode` equals the first input label: the trailing window at position 0
contains only entry 0, whose maximal frequency is 1, so the middle-index rule
returns that single element unchanged. -/
theorem claim_C10 {L : Type} [LinearOrder L] [Inhabited L] (t : List ℤ) (y : List L)
    (w : ℤ) (hw : 0 < w) (hlen : t.length = y.length) (hy : y ≠ [])
    (hsort : List.Chain' (· < ·) t) :
    (rolling_mode t y w).getD 0 default = y.getD 0 default := by
  have hy0 : 0 < y.length := List.length_pos.mpr hy
  have ht0 : 0 < t.length := by omega
  rw [rolling_mode_getD hy0]
  obtain ⟨a, y', rfl⟩ := List.exists_cons_of_ne_nil hy
  obtain ⟨b, t', rfl⟩ := List.exists_cons_of_ne_nil (List.ne_nil_of_length_pos ht0)
  have hwin : windowAt (b :: t') ((a :: y').map (idxOf (categories (a :: y')))) w 0 =
      [idxOf (categories (a :: y')) a] := by
    have hblt : b - w < b := sub_lt_self _ hw
    simp [windowAt, hblt]
  rw [hwin, mode_singleton, List.getD_cons_zero]
  exact getD_idxOf (mem_categories.mpr (List.mem_cons_self _ _)) default

/-- C7: on timestamps `[0, 10, 20, 30, 40]` (seconds) with labels
`[sleep, sleep, walk, sleep, sleep]` and a 30-second window, `rolling_mode`
returns all-`sleep`; in particular the position of the isolated `walk` at
`t = 20` holds `sleep`. -/
theorem claim_C7 :
    rolling_mode [0, 10, 20, 30, 40]
        [ActLabel.sleep, ActLabel.sleep, ActLabel.walk, ActLabel.sleep, ActLabel.sleep] 30 =
      [ActLabel.sleep, ActLabel.sleep, ActLabel.sleep, ActLabel.sleep, ActLabel.sleep] := by
  decide

/-- C9: when in some rolling window the maximal label frequency is greater
than 1 (possibly shared by several labels), `rolling_mode` deterministically
outputs a tied label of maximal frequency that is least among the tied labels
in the label order — i.e. the tied label with the smallest category code, the
one that comes first in the sorted label alphabet (`scipy.stats.mode` returns
the smallest tied value over the pandas category codes, whose ordering is the
sorted order of the labels). -/
theorem claim_C9 {L : Type} [LinearOrder L] [Inhabited L] (t : List ℤ) (y : List L)
    (w : ℤ) (i : ℕ) (hlen : t.length = y.length) (hi : i < y.length) (hw : 0 < w)
    (h1 : 1 < maxCount (windowAt t y w i)) :
    (rolling_mode t y w).getD i default ∈ windowAt t y w i ∧
      cnt (windowAt t y w i) ((rolling_mode t y w).getD i default) =
        maxCount (windowAt t y w i) ∧
      ∀ a ∈ windowAt t y w i, cnt (windowAt t y w i) a = maxCount (windowAt t y w i) →
        (rolling_mode t y w).getD i default ≤ a := by
  have hit : i < t.length := by omega
  have hinj : ∀ x ∈ windowAt t y w i, ∀ z ∈ windowAt t y w i,
      idxOf (categories y) x = idxOf (categories y) z → x = z := by
    intro x hx z hz hxz
    exact idxOf_inj (mem_categories.mpr (windowAt_subset hx))
      (mem_categories.mpr (windowAt_subset hz)) hxz
  have hmapwin : windowAt t (y.map (idxOf (categories y))) w i =
      (windowAt t y w i).map (idxOf (categories y)) := windowAt_map ..
  have hne : windowAt t y w i ≠ [] := windowAt_ne_nil hit hi hw
  have hcodene : (windowAt t y w i).map (idxOf (categories y)) ≠ [] := by
    simpa using hne
  have hmcne : maxCount (windowAt t (y.map (idxOf (categories y))) w i) ≠ 1 := by
    rw [hmapwin, maxCount_map_inj hinj]
    omega
  have hout : (rolling_mode t y w).getD i default =
      (categories y).getD (modeVal ((windowAt t y w i).map (idxOf (categories y)))) default := by
    rw [rolling_mode_getD hi, mode_of_maxCount_ne_one hmcne, hmapwin]
  obtain ⟨hm_mem, hm_cnt, hm_min⟩ := modeVal_spec hcodene
  rcases List.mem_map.mp hm_mem with ⟨u, hu, huc⟩
  have hdecode : (categories y).getD
      (modeVal ((windowAt t y w i).map (idxOf (categories y)))) default = u := by
    rw [← huc]
    exact getD_idxOf (mem_categories.mpr (windowAt_subset hu)) default
  refine ⟨?_, ?_, ?_⟩
  · rw [hout, hdecode]
    exact hu
  · rw [hout, hdecode]
    have hcu : cnt ((windowAt t y w i).map (idxOf (categories y))) (idxOf (categories y) u)
        = cnt (windowAt t y w i) u :=
      cnt_map_inj (fun x hx hfx => hinj x hx u hu hfx)
    rw [huc] at hcu
    rw [← hcu, hm_cnt, maxCount_map_inj hinj]
  · intro a ha hca
    rw [hout, hdecode]
    have hcnta : cnt ((windowAt t y w i).map (idxOf (categories y))) (idxOf (categories y) a)
        = cnt (windowAt t y w i) a :=
      cnt_map_inj (fun x hx hfx => hinj x hx a ha hfx)
    have htied : cnt ((windowAt t y w i).map (idxOf (categories y))) (idxOf (categories y) a)
        = maxCount ((windowAt t y w i).map (idxOf (categories y))) := by
      rw [hcnta, hca, maxCount_map_inj hinj]
    have hle : modeVal ((windowAt t y w i).map (idxOf (categories y))) ≤
        idxOf (categories y) a :=
      hm_min _ (List.mem_map_of_mem _ ha) htied
    rw [← huc] at hle
    have hua : (categories y).getD (idxOf (categories y) u) default ≤
        (categories y).getD (idxOf (categories y) a) default :=
      getD_le_getD_of_sorted (sorted_categories y) hle
        (idxOf_lt_length (mem_categories.mpr (windowAt_subset ha))) default
    rwa [getD_idxOf (mem_categories.mpr (windowAt_subset hu)) default,
      getD_idxOf (mem_categories.mpr (windowAt_subset ha)) default] at hua

/-- C4 (counterexample): `rolling_mode` does not use the closed interval
`[t_i - w, t_i]`.  On timestamps `[0, 10, 30]` with labels `[0, 0, 1]` and a
30-unit window, the entry at `t = 0` sits exactly on the left endpoint of the
window of position 2: the closed-interval smoother of the spec's words
(`rolling_mode_spec`) sees `[0, 0, 1]` there and outputs the majority `0`,
while the source smoother (pandas `closed='right'` semantics) sees only
`[0, 1]`, finds no repeated label, and outputs the middle element `1`. -/
theorem claim_C4_counterexample :
    rolling_mode [0, 10, 30] [(0 : ℕ), 0, 1] 30 = [0, 0, 1] ∧
      rolling_mode_spec [0, 10, 30] [(0 : ℕ), 0, 1] 30 = [0, 0, 0] := by
  decide

/-- C4 (amended): for every position `i`, under monotone timestamps the
rolling-mode smoother computes the modal label over exactly the trailing
window of entries at positions `j ≤ i` whose timestamp lies in the half-open
interval `(t_i - w, t_i]` — the left endpoint is excluded and the right
endpoint included (pandas offset-based rolling uses `closed='right'`). -/
theorem claim_C4_amended (t : List ℤ) (y : List ℕ) (w : ℤ) (i : ℕ)
    (hsort : List.Chain' (· ≤ ·) t) (hlen : t.length = y.length) (hi : i < y.length) :
    (rolling_mode_codes t y w).getD i 0 = mode (windowAt t y w i) ∧
      windowAt t y w i =
        (((t.zip y).take (i + 1)).filter
          (fun p => t.getD i 0 - w < p.1 ∧ p.1 ≤ t.getD i 0)).map Prod.snd := by
  have hit : i < t.length := by omega
  constructor
  · exact rolling_mode_codes_getD hi
  · unfold windowAt
    congr 1
    apply List.filter_congr
    intro p hp
    have hpair : t.Pairwise (· ≤ ·) :=
      List.chain'_iff_pairwise.mp hsort
    have hple : p.1 ≤ t.getD i 0 := by
      rcases List.mem_iff_getElem.mp hp with ⟨j, hj, hpj⟩
      have hjt : j < (t.zip y).length := by
        rw [List.length_take] at hj
        omega
      have hji : j < i + 1 := by
        rw [List.length_take] at hj
        omega
      have hjt' : j < t.length := by
        rw [List.length_zip] at hjt
        omega
      have hget : ((t.zip y).take (i + 1))[j] = (t[j], y[j]) := by
        rw [List.getElem_take]
        exact List.getElem_zip ..
      have hp1 : p.1 = t[j] := by
        rw [← hpj, hget]
      rw [hp1, List.getD_eq_getElem t 0 hit]
      rcases Nat.lt_or_ge j i with hlt | hge
      · exact List.pairwise_iff_getElem.mp hpair j i hjt' hit hlt
      · have : j = i := by omega
        subst this
        exact le_refl _
    simp only [decide_eq_decide]
    exact ⟨fun h => ⟨h, hple⟩, fun h => h.1⟩

/-! ### Lemmas about the per-subject smoothing loop -/

theorem uniqueInOrderAux_replicate_mem {P : Type} [DecidableEq P] {p : P} {seen : List P}
    (hp : p ∈ seen) : ∀ (n : ℕ) (l : List P),
    uniqueInOrderAux seen (List.replicate n p ++ l) = uniqueInOrderAux seen l := by
  intro n
  induction n with
  | zero => intro l; rfl
  | succ n ih =>
    intro l
    rw [List.replicate_succ, List.cons_append, uniqueInOrderAux, if_pos hp]
    exact ih l

theorem uniqueInOrderAux_replicate {P : Type} [DecidableEq P] {p : P} {seen : List P}
    (hp : p ∉ seen) {n : ℕ} (hn : 0 < n) (l : List P) :
    uniqueInOrderAux seen (List.replicate n p ++ l) =
      p :: uniqueInOrderAux (p :: seen) l := by
  cases n with
  | zero => omega
  | succ n =>
    rw [List.replicate_succ, List.cons_append, uniqueInOrderAux, if_neg hp]
    rw [uniqueInOrderAux_replicate_mem (List.mem_cons_self _ _)]

theorem uniqueInOrder_two_blocks {P : Type} [DecidableEq P] {p q : P} (hpq : p ≠ q)
    {n m : ℕ} (hn : 0 < n) (hm : 0 < m) :
    uniqueInOrder (List.replicate n p ++ List.replicate m q) = [p, q] := by
  rw [uniqueInOrder, uniqueInOrderAux_replicate (List.not_mem_nil p) hn]
  have h2 : List.replicate m q = List.replicate m q ++ [] := by simp
  rw [h2, uniqueInOrderAux_replicate (by simp [Ne.symm hpq]) hm]
  rfl

theorem selectBy_replicate_self {P α : Type} [DecidableEq P] {p : P} :
    ∀ {n : ℕ} {xs : List α}, xs.length = n → selectBy (List.replicate n p) xs p = xs := by
  intro n
  induction n with
  | zero =>
    intro xs h
    rw [List.length_eq_zero.mp h]
    rfl
  | succ n ih =>
    intro xs h
    cases xs with
    | nil => simp at h
    | cons x xs =>
      have hx := @ih xs (by simpa using h)
      simp only [selectBy] at hx ⊢
      rw [List.replicate_succ, List.zip_cons_cons, List.filter_cons]
      simp only [decide_eq_true_eq]
      rw [if_pos trivial, List.map_cons, hx]

theorem selectBy_replicate_ne {P α : Type} [DecidableEq P] {p r : P} (hne : p ≠ r) :
    ∀ {n : ℕ} {xs : List α}, xs.length = n → selectBy (List.replicate n p) xs r = [] := by
  intro n
  induction n with
  | zero =>
    intro xs h
    rw [List.length_eq_zero.mp h]
    rfl
  | succ n ih =>
    intro xs h
    cases xs with
    | nil => simp at h
    | cons x xs =>
      have hx := @ih xs (by simpa using h)
      simp only [selectBy] at hx ⊢
      rw [List.replicate_succ, List.zip_cons_cons, List.filter_cons]
      simp only [decide_eq_true_eq]
      rw [if_neg hne, hx]

theorem selectBy_append {P α : Type} [DecidableEq P] {pid1 pid2 : List P}
    {xs1 xs2 : List α} (h : pid1.length = xs1.length) (r : P) :
    selectBy (pid1 ++ pid2) (xs1 ++ xs2) r = selectBy pid1 xs1 r ++ selectBy pid2 xs2 r := by
  simp only [selectBy]
  rw [List.zip_append h, List.filter_append, List.map_append]

/-! ### Claim theorems about the subject partition boundary -/

/-- C2 (counterexample): `train_hmm` receives no subject identifiers — its
inputs are exactly (probabilities, true labels, label order), as in the spec's
own contract and in the notebook call — so its transition counts cannot stop
at a subject boundary.  With two subjects `[0, 0]` and `[1, 1]`, ground truth
`[0, 0, 1, 1]`, the label jump `0 → 1` occurs exactly at the seam and at no
within-subject adjacent pair, yet the estimated transition matrix puts mass
`1/2` on it instead of the zero mass asserted by the claim. -/
theorem claim_C2_counterexample :
    mat (train_hmm [[1, 0], [1, 0], [0, 1], [0, 1]] [0, 0, 1, 1] [(0 : ℕ), 1]).transition 0 1
        = 1 / 2 ∧
      cnt (sameSubjectPairs [(0 : ℕ), 0, 1, 1] [(0 : ℕ), 0, 1, 1]) (0, 1) = 0 ∧
      (1 : ℚ) / 2 ≠ 0 := by
  refine ⟨?_, by decide, by norm_num⟩
  norm_num [mat, train_hmm, hmmTransition, hmmTransRow, succAfter, cnt, List.filter]

/-- C2 (amended): subject identity is a hard partition boundary for the
rolling-mode smoothing loop — each subject's subsequence is smoothed on its
own, so no rolling window ever spans entries of two subjects; for two
adjacent subjects the smoothed concatenation is exactly the concatenation of
the two independently smoothed sequences.  (The transition counts of
`train_hmm`, by contrast, do cross the boundary: see the counterexample.) -/
theorem claim_C2_amended {P L : Type} [DecidableEq P] [LinearOrder L] [Inhabited L]
    (p q : P) (t1 t2 : List ℤ) (y1 y2 : List L) (w : ℤ) (hpq : p ≠ q)
    (h1 : t1.length = y1.length) (h2 : t2.length = y2.length)
    (hn : y1 ≠ []) (hm : y2 ≠ []) :
    smoothPerSubject (List.replicate y1.length p ++ List.replicate y2.length q)
        (t1 ++ t2) (y1 ++ y2) w =
      rolling_mode t1 y1 w ++ rolling_mode t2 y2 w := by
  have hn0 : 0 < y1.length := List.length_pos.mpr hn
  have hm0 : 0 < y2.length := List.length_pos.mpr hm
  rw [smoothPerSubject, uniqueInOrder_two_blocks hpq hn0 hm0]
  have hrep1 : (List.replicate y1.length p).length = t1.length := by simp [h1]
  have hst1p : selectBy (List.replicate y1.length p ++ List.replicate y2.length q)
      (t1 ++ t2) p = t1 := by
    rw [selectBy_append hrep1, selectBy_replicate_self h1,
      selectBy_replicate_ne hpq.symm h2, List.append_nil]
  have hsy1p : selectBy (List.replicate y1.length p ++ List.replicate y2.length q)
      (y1 ++ y2) p = y1 := by
    rw [selectBy_append (by simp), selectBy_replicate_self rfl,
      selectBy_replicate_ne hpq.symm rfl, List.append_nil]
  have hst2q : selectBy (List.replicate y1.length p ++ List.replicate y2.length q)
      (t1 ++ t2) q = t2 := by
    rw [selectBy_append hrep1, selectBy_replicate_self h2,
      selectBy_replicate_ne hpq h1, List.nil_append]
  have hsy2q : selectBy (List.replicate y1.length p ++ List.replicate y2.length q)
      (y1 ++ y2) q = y2 := by
    rw [selectBy_append (by simp), selectBy_replicate_self rfl,
      selectBy_replicate_ne hpq rfl, List.nil_append]
  rw [List.flatMap_cons, List.flatMap_cons, List.flatMap_nil, List.append_nil,
    hst1p, hsy1p, hst2q, hsy2q]

/-! ### Lemmas about the Viterbi dynamic program -/

theorem maxUpTo_le (f : ℕ → ℝ) (n : ℕ) : ∀ j ≤ n, f j ≤ maxUpTo f n := by
  induction n with
  | zero =>
    intro j hj
    rw [Nat.le_zero.mp hj]
    exact le_refl _
  | succ n ih =>
    intro j hj
    rcases Nat.lt_or_ge j (n + 1) with h | h
    · exact le_trans (ih j (by omega)) (le_max_left _ _)
    · have : j = n + 1 := by omega
      rw [this, maxUpTo]
      exact le_max_right _ _

theorem maxUpTo_mem (f : ℕ → ℝ) (n : ℕ) : ∃ j ≤ n, maxUpTo f n = f j := by
  induction n with
  | zero => exact ⟨0, le_refl 0, rfl⟩
  | succ n ih =>
    rcases ih with ⟨j, hj, hje⟩
    rcases le_total (f (n + 1)) (maxUpTo f n) with h | h
    · exact ⟨j, by omega, by rw [maxUpTo, max_eq_left h, hje]⟩
    · exact ⟨n + 1, le_refl _, by rw [maxUpTo, max_eq_right h]⟩

theorem argmaxUpTo_le (f : ℕ → ℝ) (n : ℕ) : argmaxUpTo f n ≤ n := by
  induction n with
  | zero => exact le_refl 0
  | succ n ih =>
    rw [argmaxUpTo]
    split
    · exact le_refl _
    · omega

theorem f_argmaxUpTo (f : ℕ → ℝ) (n : ℕ) : f (argmaxUpTo f n) = maxUpTo f n := by
  induction n with
  | zero => rfl
  | succ n ih =>
    rw [argmaxUpTo, maxUpTo]
    split
    · rename_i h
      exact (max_eq_right (le_of_lt h)).symm
    · rename_i h
      rw [ih]
      exact (max_eq_left (le_of_not_lt h)).symm

theorem vitScore_nil (P : HMMParams L) (K : ℕ) (o0 : ℕ) :
    vitScore P K o0 [] = vitInit P o0 := rfl

theorem vitScore_append (P : HMMParams L) (K : ℕ) (o0 : ℕ) (rest : List ℕ) (o : ℕ) :
    vitScore P K o0 (rest ++ [o]) = vitStep P K (vitScore P K o0 rest) o := by
  rw [vitScore, List.foldl_append]
  rfl

theorem getLastD_scanl {α β : Type} (f : α → β → α) :
    ∀ (l : List β) (i : α) (d : α), (l.scanl f i).getLastD d = l.foldl f i := by
  intro l
  induction l with
  | nil => intro i d; rfl
  | cons o rest ih =>
    intro i d
    rw [List.scanl_cons, List.singleton_append, List.getLastD_cons, List.foldl_cons]
    exact ih (f i o) i

theorem vitBack_length (P : HMMParams L) (K : ℕ) :
    ∀ (rows : List (ℕ → ℝ)) (k : ℕ), (vitBack P K rows k).length = rows.length + 1 := by
  intro rows
  induction rows with
  | nil => intro k; rfl
  | cons s rows ih =>
    intro k
    rw [vitBack, List.length_append, ih]
    simp

theorem vitBack_mem_lt (P : HMMParams L) {K : ℕ} (hK : 0 < K) :
    ∀ (rows : List (ℕ → ℝ)) (k : ℕ), k < K → ∀ x ∈ vitBack P K rows k, x < K := by
  intro rows
  induction rows with
  | nil =>
    intro k hk x hx
    rcases List.mem_cons.mp hx with h | h
    · exact h ▸ hk
    · cases h
  | cons s rows ih =>
    intro k hk x hx
    rw [vitBack] at hx
    rcases List.mem_append.mp hx with h | h
    · have hb : bestPrev P K s k < K :=
        lt_of_le_of_lt (argmaxUpTo_le _ _) (by omega)
      exact ih (bestPrev P K s k) hb x h
    · rcases List.mem_cons.mp h with h | h
      · exact h ▸ hk
      · cases h

theorem vitDecode_length (P : HMMParams L) (o0 : ℕ) (rest : List ℕ) :
    (vitDecode P o0 rest).length = rest.length + 1 := by
  rw [vitDecode, vitBack_length, List.length_reverse, List.length_dropLast,
    vitRows, List.length_scanl]
  omega

theorem vitDecode_mem_lt (P : HMMParams L) (hK : 0 < P.labels.length) (o0 : ℕ)
    (rest : List ℕ) : ∀ x ∈ vitDecode P o0 rest, x < P.labels.length := by
  intro x hx
  rw [vitDecode] at hx
  exact vitBack_mem_lt P hK _ _ (lt_of_le_of_lt (argmaxUpTo_le _ _) (by omega)) x hx

/-! ### Claim theorem about Viterbi failure conditions -/

/-- C8: `viterbi` fails with a validation error exactly when some value of
`predicted_labels` is not a member of `params.labels` or the sequence is
empty; on every other input it returns normally. -/
theorem claim_C8 {L : Type} [DecidableEq L] [Inhabited L] (obs : List L) (P : HMMParams L) :
    ((∃ out, viterbi obs P = Except.ok out) ↔ obs ≠ [] ∧ ∀ l ∈ obs, l ∈ P.labels) ∧
      ((∃ e, viterbi obs P = Except.error e) ↔ obs = [] ∨ ∃ l ∈ obs, l ∉ P.labels) := by
  cases obs with
  | nil => simp [viterbi]
  | cons o rest =>
    have hvit : viterbi (o :: rest) P =
        (if (o :: rest).all (fun l => decide (l ∈ P.labels)) then
          Except.ok ((vitDecode P (idxOf P.labels o) (rest.map (idxOf P.labels))).map
            (fun c => P.labels.getD c default))
        else Except.error "viterbi: label not in alphabet") := rfl
    by_cases h : ∀ l ∈ o :: rest, l ∈ P.labels
    · have hcond : ((o :: rest).all (fun l => decide (l ∈ P.labels))) = true := by
        rw [List.all_eq_true]
        intro x hx
        simpa using h x hx
      rw [hvit, if_pos hcond]
      constructor
      · exact ⟨fun _ => ⟨List.cons_ne_nil o rest, h⟩, fun _ => ⟨_, rfl⟩⟩
      · constructor
        · rintro ⟨e, he⟩
          exact Except.noConfusion he
        · rintro (hnil | ⟨l, hl, hnot⟩)
          · exact List.noConfusion hnil
          · exact absurd (h l hl) hnot
    · have hcond : ¬ (((o :: rest).all (fun l => decide (l ∈ P.labels))) = true) := by
        rw [List.all_eq_true]
        intro hall
        exact h (fun x hx => by simpa using hall x hx)
      rw [hvit, if_neg hcond]
      constructor
      · constructor
        · rintro ⟨out, hout⟩
          exact Except.noConfusion hout
        · rintro ⟨_, hall⟩
          exact absurd hall h
      · constructor
        · intro _
          right
          push_neg at h
          exact h
        · intro _
          exact ⟨_, rfl⟩

/-- A minimal concrete parameter bundle (one state, one label), used to
instantiate theorems with hypotheses at a concrete input. -/
def exampleParams : HMMParams ℕ :=
  ⟨[0], [1], [[1]], [[1]]⟩

/-- C1: for every valid input, `rolling_mode` returns a sequence of exactly
the same length as its input labels with every value drawn from the known
alphabet (the categorical alphabet of the input), and `viterbi` likewise
returns a sequence of the length of its input with every value drawn from
`params.labels`. -/
theorem claim_C1 :
    (∀ (L : Type) [LinearOrder L] [Inhabited L] (t : List ℤ) (y : List L) (w : ℤ),
        0 < w → t.length = y.length → List.Chain' (· ≤ ·) t →
        (rolling_mode t y w).length = y.length ∧
          ∀ v ∈ rolling_mode t y w, v ∈ categories y) ∧
    (∀ (M : Type) [DecidableEq M] [Inhabited M] (obs : List M) (P : HMMParams M),
        obs ≠ [] → (∀ l ∈ obs, l ∈ P.labels) →
        ∃ out, viterbi obs P = Except.ok out ∧ out.length = obs.length ∧
          ∀ v ∈ out, v ∈ P.labels) := by
  constructor
  · intro L _ _ t y w hw hlen _
    exact ⟨rolling_mode_length t y w,
      fun v hv => mem_categories.mpr (rolling_mode_mem hw hlen hv)⟩
  · intro M _ _ obs P hne hmem
    cases obs with
    | nil => exact absurd rfl hne
    | cons o rest =>
      have hvit : viterbi (o :: rest) P =
          (if (o :: rest).all (fun l => decide (l ∈ P.labels)) then
            Except.ok ((vitDecode P (idxOf P.labels o) (rest.map (idxOf P.labels))).map
              (fun c => P.labels.getD c default))
          else Except.error "viterbi: label not in alphabet") := rfl
      have hcond : ((o :: rest).all (fun l => decide (l ∈ P.labels))) = true := by
        rw [List.all_eq_true]
        intro x hx
        simpa using hmem x hx
      have hK : 0 < P.labels.length :=
        List.length_pos.mpr (List.ne_nil_of_mem (hmem o (List.mem_cons_self _ _)))
      refine ⟨_, by rw [hvit, if_pos hcond], ?_, ?_⟩
      · rw [List.length_map, vitDecode_length, List.length_map, List.length_cons]
      · intro v hv
        rcases List.mem_map.mp hv with ⟨c, hc, hvc⟩
        have hclt : c < P.labels.length := vitDecode_mem_lt P hK _ _ c hc
        rw [← hvc, List.getD_eq_getElem _ _ hclt]
        exact List.getElem_mem _

/-- C1 witness: the guarantees at a concrete input, obtained by applying
`claim_C1` itself and discharging its hypotheses there. -/
theorem claim_C1_witness :
    ((rolling_mode [0] [(0 : ℕ)] 1).length = [(0 : ℕ)].length ∧
      ∀ v ∈ rolling_mode [0] [(0 : ℕ)] 1, v ∈ categories [(0 : ℕ)]) ∧
    (∃ out, viterbi [0] exampleParams = Except.ok out ∧ out.length = [(0 : ℕ)].length ∧
      ∀ v ∈ out, v ∈ exampleParams.labels) :=
  ⟨claim_C1.1 ℕ [0] [(0 : ℕ)] 1 (by decide) rfl (by simp),
    claim_C1.2 ℕ [(0 : ℕ)] exampleParams (by decide) (by decide)⟩

/-- C5: `viterbi` computes the decoded sequence by log-domain dynamic
programming: the score of the empty tail is the initialization
`log(prior[k]) + log(emission[k][obs_0])`; appending an observation applies
the recurrence `max_over_j(score[j] + log(transition[j][k])) +
log(emission[k][obs_t])`; `maxUpTo`/`argmaxUpTo` really are the maximum and
an arg-max over the states; the backpointer step follows the arg-max of
`score[t-1][j] + log(transition[j][k])`; the decoded path is reconstructed
by following backpointers from the arg-max of the final score column; and
`safelog` clips an entry of exactly 0 to the positive floor `1e-16` before
taking the logarithm and is the plain logarithm otherwise. -/
theorem claim_C5 :
    (∀ (L : Type) (P : HMMParams L) (K o0 k : ℕ),
        vitScore P K o0 [] k = safelog (P.prior.getD k 0) + safelog (mat P.emission k o0)) ∧
    (∀ (L : Type) (P : HMMParams L) (K o0 : ℕ) (rest : List ℕ) (o k : ℕ),
        vitScore P K o0 (rest ++ [o]) k =
          maxUpTo (fun j => vitScore P K o0 rest j + safelog (mat P.transition j k))
              (K - 1) +
            safelog (mat P.emission k o)) ∧
    (∀ (f : ℕ → ℝ) (n : ℕ),
        (∃ j ≤ n, maxUpTo f n = f j) ∧ (∀ j ≤ n, f j ≤ maxUpTo f n) ∧
          argmaxUpTo f n ≤ n ∧ f (argmaxUpTo f n) = maxUpTo f n) ∧
    (∀ (L : Type) (P : HMMParams L) (K : ℕ) (s : ℕ → ℝ) (rows : List (ℕ → ℝ)) (k : ℕ),
        vitBack P K (s :: rows) k =
          vitBack P K rows
              (argmaxUpTo (fun j => s j + safelog (mat P.transition j k)) (K - 1)) ++ [k]) ∧
    (∀ (L : Type) (P : HMMParams L) (o0 : ℕ) (rest : List ℕ),
        vitDecode P o0 rest =
          vitBack P P.labels.length (vitRows P P.labels.length o0 rest).dropLast.reverse
            (argmaxUpTo (vitScore P P.labels.length o0 rest) (P.labels.length - 1))) ∧
    (∀ x : ℚ,
        (x = 0 → safelog x = Real.log (((1 : ℚ) / 10 ^ 16 : ℚ) : ℝ)) ∧
          (x ≠ 0 → safelog x = Real.log ((x : ℚ) : ℝ)) ∧ (0 : ℚ) < 1 / 10 ^ 16) := by
  refine ⟨fun L P K o0 k => rfl, ?_, ?_, ?_, ?_, ?_⟩
  · intro L P K o0 rest o k
    rw [vitScore_append]
    rfl
  · intro f n
    exact ⟨maxUpTo_mem f n, maxUpTo_le f n, argmaxUpTo_le f n, f_argmaxUpTo f n⟩
  · intro L P K s rows k
    rfl
  · intro L P o0 rest
    simp only [vitDecode, vitRows]
    rw [getLastD_scanl]
    rfl
  · intro x
    refine ⟨?_, ?_, by norm_num⟩
    · intro hx
      rw [safelog, if_pos hx]
    · intro hx
      rw [safelog, if_neg hx]

/-- C5 witness: the Viterbi recurrence applied by `claim_C5` itself at a
concrete input. -/
theorem claim_C5_witness :
    vitScore exampleParams 1 0 ([] ++ [0]) 0 =
      maxUpTo (fun j => vitScore exampleParams 1 0 [] j +
          safelog (mat exampleParams.transition j 0)) 0 +
        safelog (mat exampleParams.emission 0 0) :=
  claim_C5.2.1 ℕ exampleParams 1 0 [] 0 0

/-! ### Sum lemmas for the row-stochasticity of `train_hmm` -/

theorem sum_map_add_nat {α : Type} (l : List α) (f g : α → ℕ) :
    (l.map (fun a => f a + g a)).sum = (l.map f).sum + (l.map g).sum := by
  induction l with
  | nil => rfl
  | cons b l ih =>
    simp only [List.map_cons, List.sum_cons, ih]
    omega

theorem sum_map_add_rat {α : Type} (l : List α) (f g : α → ℚ) :
    (l.map (fun a => f a + g a)).sum = (l.map f).sum + (l.map g).sum := by
  induction l with
  | nil => simp
  | cons b l ih =>
    simp only [List.map_cons, List.sum_cons, ih]
    ring

theorem sum_div_list (r : List ℚ) (d : ℚ) : (r.map (fun x => x / d)).sum = r.sum / d := by
  induction r with
  | nil => simp
  | cons b r ih =>
    simp only [List.map_cons, List.sum_cons, ih]
    rw [add_div]

theorem sum_map_div_rat {α : Type} (l : List α) (f : α → ℚ) (d : ℚ) :
    (l.map (fun a => f a / d)).sum = (l.map f).sum / d := by
  induction l with
  | nil => simp
  | cons b l ih =>
    simp only [List.map_cons, List.sum_cons, ih]
    rw [add_div]

theorem cast_sum_map {α : Type} (l : List α) (f : α → ℕ) :
    (l.map (fun a => (f a : ℚ))).sum = ((l.map f).sum : ℚ) := by
  induction l with
  | nil => simp
  | cons b l ih => simp [ih]

theorem sum_ite_eq_one {α : Type} [DecidableEq α] {labels : List α} (hnd : labels.Nodup)
    {y : α} (hy : y ∈ labels) :
    (labels.map (fun c => if y = c then 1 else 0)).sum = 1 := by
  induction labels with
  | nil => cases hy
  | cons b labels ih =>
    rw [List.map_cons, List.sum_cons]
    have hnd' := List.nodup_cons.mp hnd
    rcases List.mem_cons.mp hy with h | h
    · rw [if_pos h]
      have hz : (labels.map (fun c => if y = c then 1 else 0)).sum = 0 := by
        apply List.sum_eq_zero
        intro x hx
        rcases List.mem_map.mp hx with ⟨c, hc, hcx⟩
        rw [← hcx, if_neg]
        intro he
        exact hnd'.1 ((he.symm.trans h) ▸ hc)
      omega
    · have hyb : y ≠ b := fun he => hnd'.1 (he ▸ h)
      rw [if_neg hyb, ih hnd'.2 h]

theorem sum_cnt_eq_length {α : Type} [DecidableEq α] {labels : List α} (hnd : labels.Nodup) :
    ∀ {Y : List α}, (∀ y ∈ Y, y ∈ labels) →
      (labels.map (fun c => cnt Y c)).sum = Y.length := by
  intro Y
  induction Y with
  | nil =>
    intro _
    have : ∀ c ∈ labels, cnt ([] : List α) c = 0 := fun c _ => rfl
    rw [List.map_congr_left this]
    simp
  | cons y Y ih =>
    intro hmem
    have h1 : ∀ c ∈ labels, cnt (y :: Y) c = cnt Y c + (if y = c then 1 else 0) := by
      intro c _
      rw [cnt_cons]
      by_cases h : y = c <;> simp [h]
    rw [List.map_congr_left h1, sum_map_add_nat,
      ih (fun z hz => hmem z (List.mem_cons_of_mem _ hz)),
      sum_ite_eq_one hnd (hmem y (List.mem_cons_self _ _))]
    rfl

theorem sum_cnt_cast {α : Type} [DecidableEq α] {labels : List α} (hnd : labels.Nodup)
    {Y : List α} (hmem : ∀ y ∈ Y, y ∈ labels) :
    (labels.map (fun c => (cnt Y c : ℚ))).sum = (Y.length : ℚ) := by
  rw [cast_sum_map, sum_cnt_eq_length hnd hmem]

theorem getD_nonneg {r : List ℚ} (h : ∀ x ∈ r, 0 ≤ x) (j : ℕ) : 0 ≤ r.getD j 0 := by
  rcases Nat.lt_or_ge j r.length with hj | hj
  · rw [List.getD_eq_getElem _ _ hj]
    exact h _ (List.getElem_mem _)
  · rw [List.getD_eq_default _ _ hj]

theorem range_map_getD (r : List ℚ) : (List.range r.length).map (fun j => r.getD j 0) = r := by
  induction r with
  | nil => rfl
  | cons x r ih =>
    rw [List.length_cons, List.range_succ_eq_map, List.map_cons, List.map_map]
    have hc : ∀ j ∈ List.range r.length,
        ((fun j => (x :: r).getD j 0) ∘ Nat.succ) j = r.getD j 0 := by
      intro j _
      simp [Function.comp, List.getD_cons_succ]
    rw [List.map_congr_left hc, ih]
    rfl

theorem zip_snd_mem {α β : Type} [DecidableEq β] {l2 : List β} {c : β} :
    ∀ {l : List α}, c ∈ l2 → l2.length ≤ l.length → ∃ a, (a, c) ∈ l.zip l2 := by
  induction l2 with
  | nil => intro l h; cases h
  | cons b l2 ih =>
    intro l hc hlen
    cases l with
    | nil => simp at hlen
    | cons a l =>
      rcases List.mem_cons.mp hc with h | h
      · exact ⟨a, by rw [List.zip_cons_cons, h]; exact List.mem_cons_self _ _⟩
      · rcases ih (l := l) h (by simpa using hlen) with ⟨x, hx⟩
        exact ⟨x, by rw [List.zip_cons_cons]; exact List.mem_cons_of_mem _ hx⟩

theorem normRow_sum {r : List ℚ} (h : r.sum ≠ 0) : (normRow r).sum = 1 := by
  rw [normRow, sum_div_list, div_self h]

theorem normRow_nonneg {r : List ℚ} (h : ∀ x ∈ r, 0 ≤ x) (hs : 0 ≤ r.sum) :
    ∀ x ∈ normRow r, 0 ≤ x := by
  intro x hx
  rcases List.mem_map.mp hx with ⟨a, ha, hax⟩
  rw [← hax]
  exact div_nonneg (h a ha) hs

theorem sum_map_one {α : Type} (l : List α) : (l.map (fun _ => (1 : ℚ))).sum = (l.length : ℚ) := by
  induction l with
  | nil => simp
  | cons b l ih =>
    simp only [List.map_cons, List.sum_cons, ih, List.length_cons]
    push_cast
    ring

theorem colMean_sum {rows : List (List ℚ)} {K : ℕ} (hne : rows ≠ [])
    (hlen : ∀ r ∈ rows, r.length = K) (hsum : ∀ r ∈ rows, r.sum = 1) :
    (colMean rows K).sum = 1 := by
  rw [colMean, sum_map_div_rat]
  have hswap : ∀ (rs : List (List ℚ)),
      ((List.range K).map (fun j => (rs.map (fun r => r.getD j 0)).sum)).sum =
        (rs.map (fun r => ((List.range K).map (fun j => r.getD j 0)).sum)).sum := by
    intro rs
    induction rs with
    | nil => simp
    | cons r rs ih =>
      simp only [List.map_cons, List.sum_cons]
      rw [sum_map_add_rat, ih]
  rw [hswap]
  have hrow : ∀ r ∈ rows, ((List.range K).map (fun j => r.getD j 0)).sum = 1 := by
    intro r hr
    rw [← hlen r hr, range_map_getD]
    exact hsum r hr
  rw [List.map_congr_left hrow]
  have hlenne : (rows.length : ℚ) ≠ 0 := by
    have := List.length_pos.mpr hne
    simp only [ne_eq, Nat.cast_eq_zero]
    omega
  rw [sum_map_one, div_self hlenne]

theorem colMean_nonneg {rows : List (List ℚ)} {K : ℕ}
    (h : ∀ r ∈ rows, ∀ x ∈ r, 0 ≤ x) : ∀ x ∈ colMean rows K, 0 ≤ x := by
  intro x hx
  rcases List.mem_map.mp hx with ⟨j, _, hjx⟩
  rw [← hjx]
  apply div_nonneg
  · apply List.sum_nonneg
    intro z hz
    rcases List.mem_map.mp hz with ⟨r, hr, hrz⟩
    exact hrz ▸ getD_nonneg (h r hr) j
  · exact Nat.cast_nonneg _

/-! ### Row-stochasticity of the modelled `train_hmm` -/

theorem cast_length_ne_zero {α : Type} {l : List α} (h : l ≠ []) : (l.length : ℚ) ≠ 0 := by
  have := List.length_pos.mpr h
  simp only [ne_eq, Nat.cast_eq_zero]
  omega

theorem hmmPrior_sum {L : Type} [DecidableEq L] {Ytrue labels : List L} (hnd : labels.Nodup)
    (hY : Ytrue ≠ []) (hmem : ∀ y ∈ Ytrue, y ∈ labels) :
    (hmmPrior Ytrue labels).sum = 1 := by
  rw [hmmPrior, sum_map_div_rat, sum_cnt_cast hnd hmem]
  exact div_self (cast_length_ne_zero hY)

theorem hmmPrior_nonneg {L : Type} [DecidableEq L] (Ytrue labels : List L) :
    ∀ x ∈ hmmPrior Ytrue labels, 0 ≤ x := by
  intro x hx
  rcases List.mem_map.mp hx with ⟨c, _, hcx⟩
  rw [← hcx]
  exact div_nonneg (Nat.cast_nonneg _) (Nat.cast_nonneg _)

theorem succAfter_subset {L : Type} [DecidableEq L] {Ytrue labels : List L}
    (hmem : ∀ y ∈ Ytrue, y ∈ labels) (c : L) :
    ∀ z ∈ succAfter Ytrue c, z ∈ labels := by
  intro z hz
  rcases List.mem_map.mp hz with ⟨⟨a, b⟩, hab, hpz⟩
  have h2 : (a, b) ∈ Ytrue.zip Ytrue.tail := List.mem_of_mem_filter hab
  have h3 : b ∈ Ytrue.tail := (List.of_mem_zip h2).2
  exact hmem z (hpz ▸ List.mem_of_mem_tail h3)

theorem hmmTransRow_sum {L : Type} [DecidableEq L] {Ytrue labels : List L}
    (hnd : labels.Nodup) (hlab : labels ≠ []) (hmem : ∀ y ∈ Ytrue, y ∈ labels) (c : L) :
    (hmmTransRow Ytrue labels c).sum = 1 := by
  rw [hmmTransRow]
  by_cases he : (succAfter Ytrue c).isEmpty
  · rw [if_pos he]
    have h1 : (labels.map (fun _ => (1 : ℚ) / (labels.length : ℚ))).sum =
        (labels.map (fun _ => (1 : ℚ))).sum / (labels.length : ℚ) :=
      sum_map_div_rat labels (fun _ => 1) _
    rw [h1, sum_map_one, div_self (cast_length_ne_zero hlab)]
  · rw [if_neg he]
    have hne : succAfter Ytrue c ≠ [] := by
      simpa [List.isEmpty_iff] using he
    rw [sum_map_div_rat, sum_cnt_cast hnd (succAfter_subset hmem c)]
    exact div_self (cast_length_ne_zero hne)

theorem hmmTransRow_nonneg {L : Type} [DecidableEq L] (Ytrue labels : List L) (c : L) :
    ∀ x ∈ hmmTransRow Ytrue labels c, 0 ≤ x := by
  intro x hx
  rw [hmmTransRow] at hx
  by_cases he : (succAfter Ytrue c).isEmpty
  · rw [if_pos he] at hx
    rcases List.mem_map.mp hx with ⟨_, _, hxx⟩
    rw [← hxx]
    exact div_nonneg zero_le_one (Nat.cast_nonneg _)
  · rw [if_neg he] at hx
    rcases List.mem_map.mp hx with ⟨d, _, hdx⟩
    rw [← hdx]
    exact div_nonneg (Nat.cast_nonneg _) (Nat.cast_nonneg _)

theorem emisRows_subset {L : Type} [DecidableEq L] (prob : List (List ℚ)) (Ytrue : List L)
    (c : L) : ∀ r ∈ ((prob.zip Ytrue).filter (fun p => p.2 = c)).map Prod.fst, r ∈ prob := by
  intro r hr
  rcases List.mem_map.mp hr with ⟨⟨a, b⟩, hab, hfst⟩
  exact hfst ▸ (List.of_mem_zip (List.mem_of_mem_filter hab)).1

theorem emisRows_ne_nil {L : Type} [DecidableEq L] {prob : List (List ℚ)} {Ytrue : List L}
    (hplen : prob.length = Ytrue.length) {c : L} (hc : c ∈ Ytrue) :
    ((prob.zip Ytrue).filter (fun p => p.2 = c)).map Prod.fst ≠ [] := by
  rcases zip_snd_mem hc (le_of_eq hplen.symm) with ⟨a, ha⟩
  have hmf : (a, c) ∈ (prob.zip Ytrue).filter (fun p => p.2 = c) :=
    List.mem_filter.mpr ⟨ha, by simp⟩
  exact List.ne_nil_of_mem (List.mem_map_of_mem Prod.fst hmf)

theorem hmmEmisRow_sum {L : Type} [DecidableEq L] {prob : List (List ℚ)}
    {Ytrue labels : List L} (hplen : prob.length = Ytrue.length)
    (hrows : ∀ r ∈ prob, r.length = labels.length ∧ (∀ x ∈ r, 0 ≤ x) ∧ r.sum = 1)
    {c : L} (hc : c ∈ Ytrue) : (hmmEmisRow prob Ytrue labels c).sum = 1 := by
  rw [hmmEmisRow]
  apply normRow_sum
  rw [colMean_sum (emisRows_ne_nil hplen hc)
    (fun r hr => (hrows r (emisRows_subset prob Ytrue c r hr)).1)
    (fun r hr => (hrows r (emisRows_subset prob Ytrue c r hr)).2.2)]
  norm_num

theorem hmmEmisRow_nonneg {L : Type} [DecidableEq L] {prob : List (List ℚ)}
    {Ytrue labels : List L}
    (hrows : ∀ r ∈ prob, r.length = labels.length ∧ (∀ x ∈ r, 0 ≤ x) ∧ r.sum = 1)
    (c : L) : ∀ x ∈ hmmEmisRow prob Ytrue labels c, 0 ≤ x := by
  have hcm := @colMean_nonneg (((prob.zip Ytrue).filter (fun p => p.2 = c)).map Prod.fst)
    labels.length (fun r hr => (hrows r (emisRows_subset prob Ytrue c r hr)).2.1)
  exact fun x hx => normRow_nonneg hcm (List.sum_nonneg hcm) x hx

/-- C6: after `train_hmm` (on valid training data: a nonempty alphabet of
distinct labels, ground-truth labels drawn from the alphabet with every label
occurring, and aligned probability rows that are nonnegative and sum to 1),
every row of the prior vector, the transition matrix, and the emission matrix
sums to 1 within a tolerance of 1e-9 (here: exactly), and no entry of any of
them is negative. -/
theorem claim_C6 {L : Type} [DecidableEq L] (prob : List (List ℚ)) (Ytrue : List L)
    (labels : List L) (hnd : labels.Nodup) (hlab : labels ≠ [])
    (hYmem : ∀ y ∈ Ytrue, y ∈ labels) (hocc : ∀ c ∈ labels, c ∈ Ytrue)
    (hplen : prob.length = Ytrue.length)
    (hrows : ∀ r ∈ prob, r.length = labels.length ∧ (∀ x ∈ r, 0 ≤ x) ∧ r.sum = 1) :
    (|(train_hmm prob Ytrue labels).prior.sum - 1| ≤ 1 / 10 ^ 9 ∧
      ∀ x ∈ (train_hmm prob Ytrue labels).prior, 0 ≤ x) ∧
    (∀ row ∈ (train_hmm prob Ytrue labels).transition,
      |row.sum - 1| ≤ 1 / 10 ^ 9 ∧ ∀ x ∈ row, 0 ≤ x) ∧
    (∀ row ∈ (train_hmm prob Ytrue labels).emission,
      |row.sum - 1| ≤ 1 / 10 ^ 9 ∧ ∀ x ∈ row, 0 ≤ x) := by
  have hY : Ytrue ≠ [] := by
    rcases List.exists_mem_of_ne_nil labels hlab with ⟨c, hc⟩
    exact List.ne_nil_of_mem (hocc c hc)
  refine ⟨⟨?_, hmmPrior_nonneg Ytrue labels⟩, ?_, ?_⟩
  · rw [show (train_hmm prob Ytrue labels).prior = hmmPrior Ytrue labels from rfl,
      hmmPrior_sum hnd hY hYmem]
    norm_num
  · intro row hrow
    rcases List.mem_map.mp hrow with ⟨c, _, hcrow⟩
    rw [← hcrow]
    refine ⟨?_, hmmTransRow_nonneg Ytrue labels c⟩
    rw [hmmTransRow_sum hnd hlab hYmem c]
    norm_num
  · intro row hrow
    rcases List.mem_map.mp hrow with ⟨c, hc, hcrow⟩
    rw [← hcrow]
    refine ⟨?_, hmmEmisRow_nonneg hrows c⟩
    rw [hmmEmisRow_sum hplen hrows (hocc c hc)]
    norm_num

/-- C6 witness: the prior guarantee at a concrete two-label training set,
obtained by applying `claim_C6` itself and discharging its hypotheses. -/
theorem claim_C6_witness :
    |(train_hmm [[1, 0], [0, 1]] [0, 1] [(0 : ℕ), 1]).prior.sum - 1| ≤ 1 / 10 ^ 9 ∧
      ∀ x ∈ (train_hmm [[1, 0], [0, 1]] [0, 1] [(0 : ℕ), 1]).prior, 0 ≤ x :=
  (claim_C6 [[1, 0], [0, 1]] [0, 1] [(0 : ℕ), 1] (by decide) (by decide) (by decide)
    (by decide) rfl (by
      intro r hr
      rcases List.mem_cons.mp hr with h | h
      · rw [h]
        norm_num
      · rcases List.mem_cons.mp h with h2 | h2
        · rw [h2]
          norm_num
        · cases h2)).1

/-! ### Witnesses at concrete inputs -/

/-- C3 witness: the middle-index rule at a concrete window with two distinct
labels, obtained by applying `claim_C3` itself. -/
theorem claim_C3_witness :
    (rolling_mode [0, 10] [(5 : ℕ), 7] 30).getD 1 default =
      (windowAt [0, 10] [(5 : ℕ), 7] 30 1).getD
        ((windowAt [0, 10] [(5 : ℕ), 7] 30 1).length / 2) default :=
  claim_C3 [0, 10] [(5 : ℕ), 7] 30 1 rfl (by decide) (by decide) (by decide)

/-- C4 witness: the half-open-window characterization at a concrete input,
obtained by applying `claim_C4_amended` itself. -/
theorem claim_C4_amended_witness :
    (rolling_mode_codes [0, 10] [(0 : ℕ), 1] 30).getD 1 0 =
        mode (windowAt [0, 10] [(0 : ℕ), 1] 30 1) ∧
      windowAt [0, 10] [(0 : ℕ), 1] 30 1 =
        ((([(0 : ℤ), 10].zip [(0 : ℕ), 1]).take 2).filter
          (fun p => [(0 : ℤ), 10].getD 1 0 - 30 < p.1 ∧ p.1 ≤ [(0 : ℤ), 10].getD 1 0)).map
          Prod.snd :=
  claim_C4_amended [0, 10] [0, 1] 30 1 (by norm_num [List.chain'_cons]) rfl (by decide)

/-- C9 witness: the tie-break guarantee at a concrete window where two labels
tie at frequency two, obtained by applying `claim_C9` itself. -/
theorem claim_C9_witness :
    (rolling_mode [0, 10, 20, 30] [(1 : ℕ), 1, 0, 0] 100).getD 3 default ∈
        windowAt [0, 10, 20, 30] [(1 : ℕ), 1, 0, 0] 100 3 ∧
      cnt (windowAt [0, 10, 20, 30] [(1 : ℕ), 1, 0, 0] 100 3)
          ((rolling_mode [0, 10, 20, 30] [(1 : ℕ), 1, 0, 0] 100).getD 3 default) =
        maxCount (windowAt [0, 10, 20, 30] [(1 : ℕ), 1, 0, 0] 100 3) ∧
      ∀ a ∈ windowAt [0, 10, 20, 30] [(1 : ℕ), 1, 0, 0] 100 3,
        cnt (windowAt [0, 10, 20, 30] [(1 : ℕ), 1, 0, 0] 100 3) a =
            maxCount (windowAt [0, 10, 20, 30] [(1 : ℕ), 1, 0, 0] 100 3) →
          (rolling_mode [0, 10, 20, 30] [(1 : ℕ), 1, 0, 0] 100).getD 3 default ≤ a :=
  claim_C9 [0, 10, 20, 30] [1, 1, 0, 0] 100 3 rfl (by decide) (by decide) (by decide)

/-- C10 witness: the first-position guarantee at a concrete input, obtained by
applying `claim_C10` itself. -/
theorem claim_C10_witness :
    (rolling_mode [0, 5] [(3 : ℕ), 4] 7).getD 0 default = [(3 : ℕ), 4].getD 0 default :=
  claim_C10 [0, 5] [3, 4] 7 (by decide) rfl (by decide) (by norm_num [List.chain'_cons])

/-- C2 witness: the per-subject decomposition at a concrete two-subject input,
obtained by applying `claim_C2_amended` itself. -/
theorem claim_C2_amended_witness :
    smoothPerSubject (List.replicate 1 (0 : ℕ) ++ List.replicate 1 1) ([0] ++ [0])
        ([(5 : ℕ)] ++ [6]) 1 =
      rolling_mode [0] [(5 : ℕ)] 1 ++ rolling_mode [0] [(6 : ℕ)] 1 :=
  claim_C2_amended 0 1 [0] [0] [5] [6] 1 (by decide) rfl rfl (by decide) (by decide)

/-- C8 witness: the failure-condition characterization at a concrete input,
obtained by applying `claim_C8` itself. -/
theorem claim_C8_witness :
    ((∃ out, viterbi [(0 : ℕ)] exampleParams = Except.ok out) ↔
        ([(0 : ℕ)] ≠ [] ∧ ∀ l ∈ [(0 : ℕ)], l ∈ exampleParams.labels)) ∧
      ((∃ e, viterbi [(0 : ℕ)] exampleParams = Except.error e) ↔
        ([(0 : ℕ)] = [] ∨ ∃ l ∈ [(0 : ℕ)], l ∉ exampleParams.labels)) :=
  claim_C8 [(0 : ℕ)] exampleParams

/-! ### Sanity examples (concrete evaluations of the embedding) -/

example : mode [0, 0, 1] = 0 := by decide
example : mode [5, 7] = 7 := by decide
example : rolling_mode_codes [0, 10, 20, 30, 40] [0, 0, 1, 0, 0] 30 = [0, 0, 0, 0, 0] := by decide
example : categories [(3 : ℕ), 1, 3] = [1, 3] := by decide
example : categories [ActLabel.walk, ActLabel.sleep] = [ActLabel.sleep, ActLabel.walk] := by decide
example : uniqueInOrder [2, 2, 1, 2, 1] = [2, 1] := by decide
example : selectBy [2, 2, 1] [10, 20, 30] 2 = [10, 20] := by decide
example : sameSubjectPairs [0, 0, 1, 1] [0, 0, 1, 1] = [(0, 0), (1, 1)] := by decide
